import Mathlib

/-!
Shallow embedding of the hydrological core of `tgen6_water.py`
(class `TerrainGenerator`): water classification, source detection,
downhill path tracing, river generation, and lake expansion.

Grids are modelled as functions from integer coordinates to rational
values, together with explicit `height`/`width` bounds; only values at
in-bounds coordinates are ever consulted by the algorithms. Elevations
and grid cell values are rationals (the Python code stores numpy
floats, but every operation of this core uses only ordered-field
structure on them).  Loops with data-dependent exit conditions are
embedded with an explicit fuel argument and return `Option`; `none`
models fuel exhaustion, and termination theorems show the chosen fuel
always suffices.
-/

/-- The 3x3 neighbourhood offsets in the scan order of the Python code:
`for dy in range(-1, 2): for dx in range(-1, 2)`, centre included. -/
def deltas : List (Int × Int) :=
  [(-1, -1), (-1, 0), (-1, 1), (0, -1), (0, 0), (0, 1), (1, -1), (1, 0), (1, 1)]

/-- The 8-neighbourhood offsets, centre excluded (the loop in
`is_local_maximum` skips `dy == 0 and dx == 0`). -/
def deltasNoCenter : List (Int × Int) :=
  [(-1, -1), (-1, 0), (-1, 1), (0, -1), (0, 1), (1, -1), (1, 0), (1, 1)]

/-- The bounds test `0 <= y < shape[0] and 0 <= x < shape[1]`. -/
def inB (h w : Nat) (y x : Int) : Bool :=
  decide (0 ≤ y) && decide (y < (h : Int)) && decide (0 ≤ x) && decide (x < (w : Int))

/-- All grid coordinates in row-major order, as the nested loops
`for y in range(h): for x in range(w)` enumerate them. -/
def allCells (h w : Nat) : List (Int × Int) :=
  (List.range h).flatMap
    (fun y : Nat => (List.range w).map (fun x : Nat => ((y : Int), (x : Int))))

/-- Pointwise update of a grid, modelling `grid[y, x] = v`. -/
def updateR (m : Int → Int → ℚ) (y x : Int) (v : ℚ) : Int → Int → ℚ :=
  fun a b => if a = y ∧ b = x then v else m a b

/-- `generate_water`: a cell is water (1) iff its elevation is at most
the water level, else land (0). -/
def generate_water (e : Int → Int → ℚ) (water_level : ℚ) : Int → Int → ℚ :=
  fun y x => if e y x ≤ water_level then 1 else 0

theorem inB_iff (h w : Nat) (y x : Int) :
    inB h w y x = true ↔ 0 ≤ y ∧ y < (h : Int) ∧ 0 ≤ x ∧ x < (w : Int) := by
  simp [inB, and_assoc]

theorem mem_allCells (h w : Nat) (c : Int × Int) :
    c ∈ allCells h w ↔ inB h w c.1 c.2 = true := by
  rcases c with ⟨y, x⟩
  constructor
  · intro hc
    rw [allCells] at hc
    obtain ⟨a, ha, hm⟩ := List.mem_flatMap.1 hc
    obtain ⟨b, hb, he⟩ := List.mem_map.1 hm
    rw [List.mem_range] at ha hb
    injection he with h1 h2
    subst h1; subst h2
    rw [inB_iff]
    omega
  · intro hb
    rw [inB_iff] at hb
    rw [allCells]
    refine List.mem_flatMap.2 ⟨y.toNat, List.mem_range.2 (by omega),
      List.mem_map.2 ⟨x.toNat, List.mem_range.2 (by omega), ?_⟩⟩
    have h1 : (y.toNat : Int) = y := by omega
    have h2 : (x.toNat : Int) = x := by omega
    rw [h1, h2]

/-- C8: raising the water level only adds water cells: any cell
classified as water at `level1` is still water at any `level2 ≥ level1`. -/
theorem generate_water_monotone (e : Int → Int → ℚ) (level1 level2 : ℚ)
    (hl : level1 ≤ level2) (y x : Int)
    (hw : generate_water e level1 y x = 1) : generate_water e level2 y x = 1 := by
  unfold generate_water at hw ⊢
  by_cases h1 : e y x ≤ level1
  · rw [if_pos (le_trans h1 hl)]
  · rw [if_neg h1] at hw
    exact absurd hw (by norm_num)

/-- C8 witness: at a concrete one-cell field of elevation 0, water at
level 0 implies water at level 1. -/
theorem generate_water_monotone_witness :
    generate_water (fun _ _ => 0) 1 0 0 = 1 :=
  generate_water_monotone (fun _ _ => 0) 0 1 (by norm_num) 0 0 (by norm_num [generate_water])

/-- `is_local_maximum`: returns false iff some in-bounds 8-neighbour has
strictly greater elevation (the loop skips the centre offset). -/
def is_local_maximum (h w : Nat) (y x : Int) (e : Int → Int → ℚ) : Bool :=
  deltasNoCenter.all (fun d =>
    !(inB h w (y + d.1) (x + d.2) && decide (e y x < e (y + d.1) (x + d.2))))

/-- `is_local_minimum`: returns false iff some in-bounds neighbour has
strictly smaller elevation (the loop includes the centre offset, which
can never be strictly smaller than itself). -/
def is_local_minimum (h w : Nat) (y x : Int) (e : Int → Int → ℚ) : Bool :=
  deltas.all (fun d =>
    !(inB h w (y + d.1) (x + d.2) && decide (e (y + d.1) (x + d.2) < e y x)))

/-- Insertion into a sorted list of rationals. -/
def insertRat (a : ℚ) : List ℚ → List ℚ
  | [] => [a]
  | b :: t => if a ≤ b then a :: b :: t else b :: insertRat a t

/-- Insertion sort on rationals, used by the percentile model. -/
def sortRats : List ℚ → List ℚ
  | [] => []
  | a :: t => insertRat a (sortRats t)

/-- Modelled from the spec: the source computes its global threshold with
numpy percentile, which is library code outside this repository. With the
default linear interpolation, for the sorted values s of length n the
virtual index is (n - 1) * q / 100 and the result interpolates between
the two bracketing entries. numpy raises for an empty array and for a
percentile outside [0, 100]; both failures are modelled as `none`. -/
def npPercentile (q : ℚ) (xs : List ℚ) : Option ℚ :=
  if xs.length = 0 then none
  else if q < 0 ∨ 100 < q then none
  else
    let s := sortRats xs
    let n := s.length
    let hIdx : ℚ := ((n : ℚ) - 1) * q / 100
    let i : Nat := (⌊hIdx⌋).toNat
    let lo := s.getD i 0
    let hi := s.getD (min (i + 1) (n - 1)) 0
    some (lo + (hIdx - (i : ℚ)) * (hi - lo))

/-- The elevations of all cells in row-major order, the flattened array
the percentile is taken over. -/
def elevList (h w : Nat) (e : Int → Int → ℚ) : List ℚ :=
  (allCells h w).map (fun c => e c.1 c.2)

/-- `find_water_sources`: cells whose elevation strictly exceeds the
percentile threshold, kept only when they are local maxima; `none` when
the percentile computation fails. -/
def find_water_sources (h w : Nat) (e : Int → Int → ℚ) (percentile : ℚ) :
    Option (List (Int × Int)) :=
  match npPercentile percentile (elevList h w e) with
  | none => none
  | some threshold =>
    some (((allCells h w).filter (fun c => decide (threshold < e c.1 c.2))).filter
      (fun c => is_local_maximum h w c.1 c.2 e))

example :
    find_water_sources 2 2 (fun y x => if y = 1 ∧ x = 1 then 10 else 0) 50 =
      some [(1, 1)] := by with_unfolding_all decide

/-- C4: every coordinate returned by `find_water_sources` has elevation
strictly above the percentile threshold computed over all cells, and none
of its in-bounds 8-neighbours has strictly greater elevation. -/
theorem find_water_sources_spec (h w : Nat) (e : Int → Int → ℚ) (p : ℚ)
    (l : List (Int × Int)) (hl : find_water_sources h w e p = some l)
    (c : Int × Int) (hc : c ∈ l) :
    (∃ t, npPercentile p (elevList h w e) = some t ∧ t < e c.1 c.2) ∧
    ∀ d ∈ deltasNoCenter, inB h w (c.1 + d.1) (c.2 + d.2) = true →
      e (c.1 + d.1) (c.2 + d.2) ≤ e c.1 c.2 := by
  unfold find_water_sources at hl
  cases hp : npPercentile p (elevList h w e) with
  | none => rw [hp] at hl; exact absurd hl (by simp)
  | some t =>
    rw [hp] at hl
    injection hl with hl
    subst hl
    rw [List.mem_filter] at hc
    obtain ⟨hc1, hmax⟩ := hc
    rw [List.mem_filter] at hc1
    obtain ⟨-, hthr⟩ := hc1
    refine ⟨⟨t, rfl, of_decide_eq_true hthr⟩, ?_⟩
    intro d hd hb
    rw [is_local_maximum, List.all_eq_true] at hmax
    have h2 := hmax d hd
    rw [Bool.not_eq_true'] at h2
    rcases Bool.and_eq_false_iff.1 h2 with h3 | h3
    · rw [hb] at h3; cases h3
    · exact le_of_not_lt (of_decide_eq_false h3)

/-- C4 witness: on a concrete 2x2 field with one peak at (1, 1) and
percentile 50, the returned source list is [(1, 1)] and the theorem
applies to it. -/
theorem find_water_sources_spec_witness :
    (∃ t, npPercentile 50 (elevList 2 2 (fun y x => if y = 1 ∧ x = 1 then 10 else 0)) =
        some t ∧ t < (fun y x : Int => if y = 1 ∧ x = 1 then (10 : ℚ) else 0) 1 1) ∧
    ∀ d ∈ deltasNoCenter, inB 2 2 (1 + d.1) (1 + d.2) = true →
      (fun y x : Int => if y = 1 ∧ x = 1 then (10 : ℚ) else 0) (1 + d.1) (1 + d.2) ≤
        (fun y x : Int => if y = 1 ∧ x = 1 then (10 : ℚ) else 0) 1 1 :=
  find_water_sources_spec 2 2 (fun y x => if y = 1 ∧ x = 1 then 10 else 0) 50
    [(1, 1)] (by with_unfolding_all decide) (1, 1) (by with_unfolding_all decide)

/-- One step of the inner neighbour scan of `find_downhill_water_path`:
a neighbour is taken when it is in bounds, not yet on the path, and
strictly below the running lowest elevation. -/
def scanStep (h w : Nat) (e : Int → Int → ℚ) (path : List (Int × Int)) (y x : Int)
    (st : ℚ × Option (Int × Int)) (d : Int × Int) : ℚ × Option (Int × Int) :=
  let ny := y + d.1
  let nx := x + d.2
  if inB h w ny nx && decide ((ny, nx) ∉ path) && decide (e ny nx < st.1) then
    (e ny nx, some (ny, nx))
  else st

/-- The full neighbour scan: running lowest elevation starts at the
current cell's elevation, and the chosen next cell starts as none. -/
def scanNeighbors (h w : Nat) (e : Int → Int → ℚ) (path : List (Int × Int))
    (y x : Int) : ℚ × Option (Int × Int) :=
  deltas.foldl (scanStep h w e path y x) (e y x, none)

/-- The cells a given offset list reaches from (y, x) that are in
bounds, not on the path, and strictly lower than (y, x). -/
def candWrt (ds : List (Int × Int)) (h w : Nat) (e : Int → Int → ℚ)
    (path : List (Int × Int)) (y x : Int) : List (Int × Int) :=
  (ds.map (fun d => (y + d.1, x + d.2))).filter
    (fun c => inB h w c.1 c.2 && decide (c ∉ path) && decide (e c.1 c.2 < e y x))

/-- The candidate next cells of one tracing step: in-bounds neighbours
strictly lower than the current cell and not yet on the path. -/
def candidates (h w : Nat) (e : Int → Int → ℚ) (path : List (Int × Int))
    (y x : Int) : List (Int × Int) :=
  candWrt deltas h w e path y x

/-- The loop of `find_downhill_water_path` with explicit fuel: append
the current cell, scan for the lowest strictly-lower unvisited
neighbour, stop when none exists (or would not descend), else move. -/
def fdwpAux (h w : Nat) (e : Int → Int → ℚ) :
    Nat → Int → Int → List (Int × Int) → Option (List (Int × Int))
  | 0, _, _, _ => none
  | fuel + 1, y, x, path =>
    let path2 := path ++ [(y, x)]
    match (scanNeighbors h w e path2 y x).2 with
    | none => some path2
    | some (ny, nx) =>
      if e y x ≤ e ny nx then some path2
      else fdwpAux h w e fuel ny nx path2

/-- `find_downhill_water_path`, run with fuel width*height: the
termination theorem shows this fuel always suffices from an in-bounds
start. -/
def find_downhill_water_path (h w : Nat) (e : Int → Int → ℚ) (y x : Int) :
    Option (List (Int × Int)) :=
  fdwpAux h w e (h * w) y x []

example :
    find_downhill_water_path 2 2 (fun y x => -(y + x : ℚ)) 0 0 =
      some [(0, 0), (1, 1)] := by with_unfolding_all decide

example :
    find_downhill_water_path 1 3 (fun _ x => (-x : ℚ)) 0 0 =
      some [(0, 0), (0, 1), (0, 2)] := by with_unfolding_all decide

/-- Invariant of the neighbour scan after processing an offset list:
either nothing triggered (lowest still the centre elevation, no
candidate among the processed offsets), or the chosen cell is a
candidate of minimal elevation among the processed offsets. -/
def GoodScan (h w : Nat) (e : Int → Int → ℚ) (path : List (Int × Int)) (y x : Int)
    (ds : List (Int × Int)) (st : ℚ × Option (Int × Int)) : Prop :=
  (st.2 = none → st.1 = e y x ∧ candWrt ds h w e path y x = []) ∧
  (∀ c, st.2 = some c → c ∈ candWrt ds h w e path y x ∧ st.1 = e c.1 c.2 ∧
    ∀ q ∈ candWrt ds h w e path y x, st.1 ≤ e q.1 q.2)

theorem candWrt_append (ds1 ds2 : List (Int × Int)) (h w : Nat)
    (e : Int → Int → ℚ) (path : List (Int × Int)) (y x : Int) :
    candWrt (ds1 ++ ds2) h w e path y x =
      candWrt ds1 h w e path y x ++ candWrt ds2 h w e path y x := by
  rw [candWrt, List.map_append, List.filter_append]
  rfl

theorem mem_candWrt (ds : List (Int × Int)) (h w : Nat) (e : Int → Int → ℚ)
    (path : List (Int × Int)) (y x : Int) (c : Int × Int)
    (hc : c ∈ candWrt ds h w e path y x) :
    (∃ d ∈ ds, c = (y + d.1, x + d.2)) ∧
      inB h w c.1 c.2 = true ∧ c ∉ path ∧ e c.1 c.2 < e y x := by
  rw [candWrt, List.mem_filter] at hc
  obtain ⟨hm, hp'⟩ := hc
  obtain ⟨d, hd, he⟩ := List.mem_map.1 hm
  rcases Bool.and_eq_true_iff.1 hp' with ⟨hp2, h3⟩
  rcases Bool.and_eq_true_iff.1 hp2 with ⟨h1, h2⟩
  exact ⟨⟨d, hd, he.symm⟩, h1, of_decide_eq_true h2, of_decide_eq_true h3⟩

theorem goodScan_step (h w : Nat) (e : Int → Int → ℚ) (path : List (Int × Int))
    (y x : Int) (done : List (Int × Int)) (d : Int × Int)
    (st : ℚ × Option (Int × Int)) (hg : GoodScan h w e path y x done st) :
    GoodScan h w e path y x (done ++ [d]) (scanStep h w e path y x st d) := by
  obtain ⟨hnone, hsome⟩ := hg
  have hle : st.1 ≤ e y x := by
    cases hst : st.2 with
    | none => exact le_of_eq (hnone hst).1
    | some c =>
      obtain ⟨hc, he1, -⟩ := hsome c hst
      exact le_of_lt (he1 ▸ (mem_candWrt done h w e path y x c hc).2.2.2)
  have hfil : ∀ b : Bool,
      (inB h w (y + d.1) (x + d.2) && decide ((y + d.1, x + d.2) ∉ path) &&
        decide (e (y + d.1) (x + d.2) < e y x)) = b →
      candWrt [d] h w e path y x = (if b then [(y + d.1, x + d.2)] else []) := by
    intro b hb
    rw [candWrt]
    simp only [List.map_cons, List.map_nil, List.filter_cons, List.filter_nil]
    cases b with
    | true => rw [if_pos hb, if_pos rfl]
    | false =>
      rw [if_neg ?_, if_neg (by simp)]
      rw [hb]
      simp
  by_cases htr :
      (inB h w (y + d.1) (x + d.2) && decide ((y + d.1, x + d.2) ∉ path) &&
        decide (e (y + d.1) (x + d.2) < st.1)) = true
  · rcases Bool.and_eq_true_iff.1 htr with ⟨htr2, h3⟩
    rcases Bool.and_eq_true_iff.1 htr2 with ⟨h1, h2⟩
    have hlt : e (y + d.1) (x + d.2) < st.1 := of_decide_eq_true h3
    have hcand : candWrt [d] h w e path y x = [(y + d.1, x + d.2)] :=
      hfil true (by rw [h1, h2, decide_eq_true (lt_of_lt_of_le hlt hle)]; rfl)
    have hstep : scanStep h w e path y x st d =
        (e (y + d.1) (x + d.2), some (y + d.1, x + d.2)) := by
      simp only [scanStep]
      rw [if_pos htr]
    rw [hstep]
    constructor
    · intro hn
      exact absurd hn (by simp)
    · intro c hcc
      injection hcc with hcc
      subst hcc
      refine ⟨?_, rfl, ?_⟩
      · rw [candWrt_append, hcand]
        exact List.mem_append_right _ (List.mem_singleton.2 rfl)
      · intro q hq
        rw [candWrt_append] at hq
        rcases List.mem_append.1 hq with hq | hq
        · cases hst : st.2 with
          | none => rw [(hnone hst).2] at hq; cases hq
          | some c0 =>
            obtain ⟨-, -, hmin⟩ := hsome c0 hst
            exact le_of_lt (lt_of_lt_of_le hlt (hmin q hq))
        · rw [hcand, List.mem_singleton] at hq
          subst hq
          exact le_refl _
  · have hstep : scanStep h w e path y x st d = st := by
      simp only [scanStep]
      rw [if_neg htr]
    rw [hstep]
    cases hst : st.2 with
    | none =>
      obtain ⟨he1, hc1⟩ := hnone hst
      have hcand : candWrt [d] h w e path y x = [] := by
        apply hfil false
        rw [Bool.eq_false_iff]
        intro hcontra
        apply htr
        rwa [he1]
      constructor
      · intro hn
        refine ⟨he1, ?_⟩
        rw [candWrt_append, hc1, hcand]
        rfl
      · intro c hcc
        rw [hst] at hcc
        cases hcc
    | some c0 =>
      obtain ⟨hc0, he0, hmin0⟩ := hsome c0 hst
      constructor
      · intro hn
        rw [hst] at hn; cases hn
      · intro c hcc
        rw [hst] at hcc
        injection hcc with hcc
        subst hcc
        refine ⟨by rw [candWrt_append]; exact List.mem_append_left _ hc0, he0, ?_⟩
        intro q hq
        rw [candWrt_append] at hq
        rcases List.mem_append.1 hq with hq | hq
        · exact hmin0 q hq
        · obtain ⟨⟨d', hd', hq'⟩, hbq, hpq, hlq⟩ := mem_candWrt [d] h w e path y x q hq
          rw [List.mem_singleton] at hd'
          rw [hd'] at hq'
          subst hq'
          have hbq' : inB h w (y + d.1) (x + d.2) = true := hbq
          have hpq' : (y + d.1, x + d.2) ∉ path := hpq
          refine le_of_not_lt (fun hlt => htr ?_)
          rw [hbq', decide_eq_true hpq', decide_eq_true hlt]
          rfl

theorem goodScan_fold (h w : Nat) (e : Int → Int → ℚ) (path : List (Int × Int))
    (y x : Int) :
    ∀ (ds done : List (Int × Int)) (st : ℚ × Option (Int × Int)),
      GoodScan h w e path y x done st →
      GoodScan h w e path y x (done ++ ds) (ds.foldl (scanStep h w e path y x) st) := by
  intro ds
  induction ds with
  | nil =>
    intro done st hg
    rw [List.append_nil]
    exact hg
  | cons d ds ih =>
    intro done st hg
    rw [List.foldl_cons, show done ++ d :: ds = (done ++ [d]) ++ ds by simp]
    exact ih (done ++ [d]) (scanStep h w e path y x st d)
      (goodScan_step h w e path y x done d st hg)

theorem scanNeighbors_good (h w : Nat) (e : Int → Int → ℚ)
    (path : List (Int × Int)) (y x : Int) :
    GoodScan h w e path y x deltas (scanNeighbors h w e path y x) := by
  have h0 : GoodScan h w e path y x [] (e y x, none) := by
    constructor
    · intro _
      exact ⟨rfl, rfl⟩
    · intro c hcc
      cases hcc
  have := goodScan_fold h w e path y x deltas [] (e y x, none) h0
  rw [List.nil_append] at this
  exact this

theorem scanNeighbors_none (h w : Nat) (e : Int → Int → ℚ)
    (path : List (Int × Int)) (y x : Int)
    (hn : (scanNeighbors h w e path y x).2 = none) :
    candidates h w e path y x = [] :=
  ((scanNeighbors_good h w e path y x).1 hn).2

theorem scanNeighbors_none_of_empty (h w : Nat) (e : Int → Int → ℚ)
    (path : List (Int × Int)) (y x : Int)
    (hc : candidates h w e path y x = []) :
    (scanNeighbors h w e path y x).2 = none := by
  cases hs : (scanNeighbors h w e path y x).2 with
  | none => rfl
  | some c =>
    obtain ⟨hm, -, -⟩ := (scanNeighbors_good h w e path y x).2 c hs
    rw [candidates] at hc
    rw [hc] at hm
    cases hm

theorem scanNeighbors_some (h w : Nat) (e : Int → Int → ℚ)
    (path : List (Int × Int)) (y x : Int) (c : Int × Int)
    (hs : (scanNeighbors h w e path y x).2 = some c) :
    c ∈ candidates h w e path y x ∧
      ∀ q ∈ candidates h w e path y x, e c.1 c.2 ≤ e q.1 q.2 := by
  obtain ⟨hm, he1, hmin⟩ := (scanNeighbors_good h w e path y x).2 c hs
  exact ⟨hm, fun q hq => he1 ▸ hmin q hq⟩

/-- The invariant carried through the tracing loop: the accumulated path
is duplicate-free, entirely in bounds, and does not yet contain the
current cell, which is itself in bounds. -/
def PathInv (h w : Nat) (path : List (Int × Int)) (y x : Int) : Prop :=
  path.Nodup ∧ (∀ c ∈ path, inB h w c.1 c.2 = true) ∧
    (y, x) ∉ path ∧ inB h w y x = true

theorem allCells_length (h w : Nat) : (allCells h w).length = h * w := by
  induction h with
  | zero => simp [allCells]
  | succ n ih =>
    rw [allCells, List.range_succ, List.flatMap_append] at *
    rw [List.length_append, ih]
    simp [Nat.succ_mul]

theorem nodup_bounded_length (h w : Nat) (l : List (Int × Int))
    (hn : l.Nodup) (hb : ∀ c ∈ l, inB h w c.1 c.2 = true) :
    l.length ≤ h * w := by
  rw [← allCells_length h w]
  exact (hn.subperm (fun c hc => (mem_allCells h w c).2 (hb c hc))).length_le

theorem pathInv_extend (h w : Nat) (path : List (Int × Int)) (y x : Int)
    (hinv : PathInv h w path y x) :
    (path ++ [(y, x)]).Nodup ∧
      (∀ c ∈ path ++ [(y, x)], inB h w c.1 c.2 = true) ∧
      (path ++ [(y, x)]).length ≤ h * w := by
  obtain ⟨hnd, hbd, hni, hbi⟩ := hinv
  have hnd2 : (path ++ [(y, x)]).Nodup := by
    rw [List.nodup_append]
    exact ⟨hnd, List.nodup_singleton _, by simpa using hni⟩
  have hbd2 : ∀ c ∈ path ++ [(y, x)], inB h w c.1 c.2 = true := by
    intro c hc
    rcases List.mem_append.1 hc with hc | hc
    · exact hbd c hc
    · rw [List.mem_singleton] at hc
      subst hc
      exact hbi
  exact ⟨hnd2, hbd2, nodup_bounded_length h w _ hnd2 hbd2⟩

theorem mem_candidates (h w : Nat) (e : Int → Int → ℚ) (path : List (Int × Int))
    (y x : Int) (c : Int × Int) (hc : c ∈ candidates h w e path y x) :
    inB h w c.1 c.2 = true ∧ c ∉ path ∧ e c.1 c.2 < e y x :=
  (mem_candWrt deltas h w e path y x c hc).2

theorem fdwpAux_succ (h w : Nat) (e : Int → Int → ℚ) (fuel : Nat) (y x : Int)
    (path : List (Int × Int)) :
    fdwpAux h w e (fuel + 1) y x path =
      match (scanNeighbors h w e (path ++ [(y, x)]) y x).2 with
      | none => some (path ++ [(y, x)])
      | some (ny, nx) =>
        if e y x ≤ e ny nx then some (path ++ [(y, x)])
        else fdwpAux h w e fuel ny nx (path ++ [(y, x)]) := rfl

theorem fdwpAux_succ_none (h w : Nat) (e : Int → Int → ℚ) (fuel : Nat)
    (y x : Int) (path : List (Int × Int))
    (hs : (scanNeighbors h w e (path ++ [(y, x)]) y x).2 = none) :
    fdwpAux h w e (fuel + 1) y x path = some (path ++ [(y, x)]) := by
  rw [fdwpAux_succ, hs]

theorem fdwpAux_succ_some (h w : Nat) (e : Int → Int → ℚ) (fuel : Nat)
    (y x : Int) (path : List (Int × Int)) (ny nx : Int)
    (hs : (scanNeighbors h w e (path ++ [(y, x)]) y x).2 = some (ny, nx)) :
    fdwpAux h w e (fuel + 1) y x path =
      if e y x ≤ e ny nx then some (path ++ [(y, x)])
      else fdwpAux h w e fuel ny nx (path ++ [(y, x)]) := by
  rw [fdwpAux_succ, hs]

theorem fdwpAux_terminates (h w : Nat) (e : Int → Int → ℚ) :
    ∀ (fuel : Nat) (y x : Int) (path : List (Int × Int)),
      PathInv h w path y x → h * w ≤ fuel + path.length →
      ∃ p, fdwpAux h w e fuel y x path = some p ∧
        p.Nodup ∧ (∀ c ∈ p, inB h w c.1 c.2 = true) ∧ p.length ≤ h * w := by
  intro fuel
  induction fuel with
  | zero =>
    intro y x path hinv hfuel
    exfalso
    obtain ⟨-, -, hlen⟩ := pathInv_extend h w path y x hinv
    rw [List.length_append, List.length_singleton] at hlen
    omega
  | succ n ih =>
    intro y x path hinv hfuel
    obtain ⟨hnd2, hbd2, hlen2⟩ := pathInv_extend h w path y x hinv
    cases hs : (scanNeighbors h w e (path ++ [(y, x)]) y x).2 with
    | none =>
      rw [fdwpAux_succ_none h w e n y x path hs]
      exact ⟨path ++ [(y, x)], rfl, hnd2, hbd2, hlen2⟩
    | some c =>
      obtain ⟨ny, nx⟩ := c
      obtain ⟨hcand, -⟩ := scanNeighbors_some h w e (path ++ [(y, x)]) y x (ny, nx) hs
      obtain ⟨hbnb, hnotin, hlt⟩ :=
        mem_candidates h w e (path ++ [(y, x)]) y x (ny, nx) hcand
      rw [fdwpAux_succ_some h w e n y x path ny nx hs, if_neg (not_le.2 hlt)]
      apply ih ny nx (path ++ [(y, x)]) ⟨hnd2, hbd2, hnotin, hbnb⟩
      rw [List.length_append, List.length_singleton]
      omega

/-- C1: from any in-bounds start cell, `find_downhill_water_path` with
fuel width*height succeeds (so the loop runs at most width*height
iterations), and the returned path has no repeated cell. -/
theorem trace_downhill_terminates (h w : Nat) (e : Int → Int → ℚ) (y x : Int)
    (hb : inB h w y x = true) :
    ∃ p, find_downhill_water_path h w e y x = some p ∧
      p.Nodup ∧ p.length ≤ h * w := by
  obtain ⟨p, hp, hnd, -, hlen⟩ := fdwpAux_terminates h w e (h * w) y x []
    ⟨List.nodup_nil, by simp, by simp, hb⟩ (by simp)
  exact ⟨p, hp, hnd, hlen⟩

/-- C1 witness: the theorem applied at a concrete 1x1 field with start
(0, 0). -/
theorem trace_downhill_terminates_witness :
    ∃ p, find_downhill_water_path 1 1 (fun _ _ => 0) 0 0 = some p ∧
      p.Nodup ∧ p.length ≤ 1 * 1 :=
  trace_downhill_terminates 1 1 (fun _ _ => 0) 0 0 (by decide)

theorem fdwpAux_shape (h w : Nat) (e : Int → Int → ℚ) :
    ∀ (fuel : Nat) (y x : Int) (path p : List (Int × Int)),
      fdwpAux h w e fuel y x path = some p →
      ∃ q, p = path ++ (y, x) :: q := by
  intro fuel
  induction fuel with
  | zero =>
    intro y x path p hp
    cases hp
  | succ n ih =>
    intro y x path p hp
    cases hs : (scanNeighbors h w e (path ++ [(y, x)]) y x).2 with
    | none =>
      rw [fdwpAux_succ_none h w e n y x path hs] at hp
      injection hp with hp
      exact ⟨[], hp.symm⟩
    | some c =>
      obtain ⟨ny, nx⟩ := c
      rw [fdwpAux_succ_some h w e n y x path ny nx hs] at hp
      by_cases hle : e y x ≤ e ny nx
      · rw [if_pos hle] at hp
        injection hp with hp
        exact ⟨[], hp.symm⟩
      · rw [if_neg hle] at hp
        obtain ⟨q, hq⟩ := ih ny nx (path ++ [(y, x)]) p hp
        refine ⟨(ny, nx) :: q, ?_⟩
        rw [hq, List.append_assoc]
        rfl

theorem fdwpAux_steps (h w : Nat) (e : Int → Int → ℚ) :
    ∀ (fuel : Nat) (y x : Int) (path p : List (Int × Int)),
      fdwpAux h w e fuel y x path = some p →
      (∀ i a b, path.length ≤ i → p[i]? = some a → p[i + 1]? = some b →
        b ∈ candidates h w e (p.take (i + 1)) a.1 a.2 ∧
        ∀ r ∈ candidates h w e (p.take (i + 1)) a.1 a.2, e b.1 b.2 ≤ e r.1 r.2) ∧
      (∀ z, p.getLast? = some z → candidates h w e p z.1 z.2 = []) := by
  intro fuel
  induction fuel with
  | zero =>
    intro y x path p hp
    cases hp
  | succ n ih =>
    intro y x path p hp
    cases hs : (scanNeighbors h w e (path ++ [(y, x)]) y x).2 with
    | none =>
      rw [fdwpAux_succ_none h w e n y x path hs] at hp
      injection hp with hp
      subst hp
      constructor
      · intro i a b hi ha hb
        exfalso
        have hnone : (path ++ [(y, x)])[i + 1]? = none := by
          apply List.getElem?_eq_none
          rw [List.length_append, List.length_singleton]
          omega
        rw [hnone] at hb
        cases hb
      · intro z hz
        rw [List.getLast?_concat] at hz
        injection hz with hz
        subst hz
        exact scanNeighbors_none h w e (path ++ [(y, x)]) y x hs
    | some c =>
      obtain ⟨ny, nx⟩ := c
      obtain ⟨hcand, hmin⟩ := scanNeighbors_some h w e (path ++ [(y, x)]) y x (ny, nx) hs
      obtain ⟨hbnb, hnotin, hlt⟩ :=
        mem_candidates h w e (path ++ [(y, x)]) y x (ny, nx) hcand
      rw [fdwpAux_succ_some h w e n y x path ny nx hs] at hp
      rw [if_neg (not_le.2 hlt)] at hp
      obtain ⟨hstep, hlast⟩ := ih ny nx (path ++ [(y, x)]) p hp
      obtain ⟨q, hq⟩ := fdwpAux_shape h w e n ny nx (path ++ [(y, x)]) p hp
      constructor
      · intro i a b hi ha hb
        rcases Nat.lt_or_ge i (path.length + 1) with hcase | hcase
        · have hieq : i = path.length := by omega
          subst hieq
          have hpa : p[path.length]? = some (y, x) := by
            rw [hq, List.append_assoc, List.getElem?_append_right (le_refl _)]
            simp
          have hpb : p[path.length + 1]? = some (ny, nx) := by
            rw [hq, List.append_assoc,
              List.getElem?_append_right (Nat.le_succ_of_le (le_refl _))]
            simp
          rw [hpa] at ha
          injection ha with ha
          rw [hpb] at hb
          injection hb with hb
          subst ha
          subst hb
          have htake : p.take (path.length + 1) = path ++ [(y, x)] := by
            rw [hq, List.append_assoc, List.take_append_eq_append_take,
              List.take_of_length_le (by omega)]
            congr 1
            have h1 : path.length + 1 - path.length = 1 := by omega
            rw [h1]
            rfl
          rw [htake]
          exact ⟨hcand, hmin⟩
        · have := hstep i a b (by rw [List.length_append, List.length_singleton]; omega) ha hb
          exact this
      · exact hlast

/-- C3: a traced path is nonempty, begins at the start cell, every later
cell is an in-bounds 8-neighbour of the previous one, strictly lower and
not yet on the path, of minimal elevation among all such candidates, and
the path ends exactly when no candidate remains at its last cell. -/
theorem trace_downhill_path_spec (h w : Nat) (e : Int → Int → ℚ) (y x : Int)
    (p : List (Int × Int)) (hp : find_downhill_water_path h w e y x = some p) :
    p ≠ [] ∧ p.head? = some (y, x) ∧
    (∀ i a b, p[i]? = some a → p[i + 1]? = some b →
      b ∈ candidates h w e (p.take (i + 1)) a.1 a.2 ∧
      ∀ r ∈ candidates h w e (p.take (i + 1)) a.1 a.2, e b.1 b.2 ≤ e r.1 r.2) ∧
    (∀ z, p.getLast? = some z → candidates h w e p z.1 z.2 = []) := by
  rw [find_downhill_water_path] at hp
  obtain ⟨q, hq⟩ := fdwpAux_shape h w e (h * w) y x [] p hp
  obtain ⟨hstep, hlast⟩ := fdwpAux_steps h w e (h * w) y x [] p hp
  refine ⟨?_, ?_, ?_, hlast⟩
  · rw [hq]
    simp
  · rw [hq]
    simp
  · intro i a b ha hb
    exact hstep i a b (Nat.zero_le i) ha hb

/-- C3 witness: the theorem applied to the 1x1 flat field, whose path
from (0, 0) is the single start cell. -/
theorem trace_downhill_path_spec_witness :
    ([(0, 0)] : List (Int × Int)) ≠ [] ∧
    ([(0, 0)] : List (Int × Int)).head? = some (0, 0) ∧
    (∀ i a b, ([(0, 0)] : List (Int × Int))[i]? = some a →
      ([(0, 0)] : List (Int × Int))[i + 1]? = some b →
      b ∈ candidates 1 1 (fun _ _ => 0) (([(0, 0)] : List (Int × Int)).take (i + 1)) a.1 a.2 ∧
      ∀ r ∈ candidates 1 1 (fun _ _ => 0) (([(0, 0)] : List (Int × Int)).take (i + 1)) a.1 a.2,
        (fun _ _ : Int => (0 : ℚ)) b.1 b.2 ≤ (fun _ _ : Int => (0 : ℚ)) r.1 r.2) ∧
    (∀ z, ([(0, 0)] : List (Int × Int)).getLast? = some z →
      candidates 1 1 (fun _ _ => 0) [(0, 0)] z.1 z.2 = []) :=
  trace_downhill_path_spec 1 1 (fun _ _ => 0) 0 0 [(0, 0)]
    (by with_unfolding_all decide)

/-- Chebyshev distance between two grid coordinates. -/
def chebyshev (a b : Int × Int) : Nat :=
  max (a.1 - b.1).natAbs (a.2 - b.2).natAbs

/-- The diagonal cells (0,0), (1,1), ..., (n-1,n-1). -/
def diag (n : Nat) : List (Int × Int) :=
  (List.range n).map (fun k : Nat => ((k : Int), (k : Int)))

theorem diag_succ (k : Nat) :
    diag (k + 1) = diag k ++ [((k : Int), (k : Int))] := by
  rw [diag, List.range_succ, List.map_append]
  rfl

theorem mem_diag (n : Nat) (c : Int × Int) :
    c ∈ diag n ↔ ∃ i : Nat, i < n ∧ c = ((i : Int), (i : Int)) := by
  constructor
  · intro hc
    obtain ⟨i, hi, he⟩ := List.mem_map.1 hc
    exact ⟨i, List.mem_range.1 hi, he.symm⟩
  · rintro ⟨i, hi, rfl⟩
    exact List.mem_map.2 ⟨i, List.mem_range.2 hi, rfl⟩

theorem diag_length (n : Nat) : (diag n).length = n := by
  rw [diag, List.length_map, List.length_range]

/-- C9 counterexample: on the 2x2 strictly decreasing slope with corner
peak (0, 0), the traced path is [(0,0), (1,1)]: it has length 2, while
the Chebyshev distance between the two corners is 1, so the path length
does not equal the Chebyshev distance. -/
theorem trace_downhill_slope_cex :
    find_downhill_water_path 2 2 (fun y x => -(y + x : ℚ)) 0 0 =
      some [(0, 0), (1, 1)] ∧
    ([(0, 0), (1, 1)] : List (Int × Int)).length ≠ chebyshev (0, 0) (1, 1) := by
  constructor
  · with_unfolding_all decide
  · decide

theorem diag_step_candidate (n k : Nat) (f : Int → ℚ) (hf : StrictAnti f)
    (hk : k + 1 < n) :
    ((k : Int) + 1, (k : Int) + 1) ∈
      candidates n n (fun y x => f (y + x)) (diag (k + 1)) (k : Int) (k : Int) := by
  rw [candidates, candWrt, List.mem_filter]
  constructor
  · exact List.mem_map.2 ⟨(1, 1), by simp [deltas], rfl⟩
  · have h1 : inB n n ((k : Int) + 1) ((k : Int) + 1) = true := by
      rw [inB_iff]
      refine ⟨by omega, ?_, by omega, ?_⟩ <;> omega
    have h2 : ((k : Int) + 1, (k : Int) + 1) ∉ diag (k + 1) := by
      intro hc
      obtain ⟨i, hi, he⟩ := (mem_diag (k + 1) _).1 hc
      injection he with he1 he2
      omega
    have h3 : f (((k : Int) + 1) + ((k : Int) + 1)) < f ((k : Int) + (k : Int)) :=
      hf (by omega)
    rw [h1, decide_eq_true h2]
    simp only [Bool.true_and, Bool.and_true]
    exact decide_eq_true h3

theorem diag_candidates_shape (n k : Nat) (f : Int → ℚ) (hf : StrictAnti f)
    (c : Int × Int)
    (hc : c ∈ candidates n n (fun y x => f (y + x)) (diag (k + 1)) (k : Int) (k : Int)) :
    ∃ d : Int × Int, d ∈ deltas ∧ c = ((k : Int) + d.1, (k : Int) + d.2) ∧
      c.1 < (n : Int) ∧ c.2 < (n : Int) ∧ 0 < d.1 + d.2 := by
  obtain ⟨⟨d, hd, hcd⟩, hb, hnp, hlt⟩ := mem_candWrt deltas n n _ (diag (k + 1)) _ _ c hc
  rw [inB_iff] at hb
  refine ⟨d, hd, hcd, hb.2.1, hb.2.2.2, ?_⟩
  rw [hcd] at hlt
  have := hf.lt_iff_lt.1 hlt
  omega

/-- The diagonal-trace lemma: from (k, k) with the first k+0 diagonal
cells not yet including (k, k), the tracer extends the path along the
diagonal to the far corner. -/
theorem fdwpAux_diag (n : Nat) (f : Int → ℚ) (hf : StrictAnti f) :
    ∀ (m k fuel : Nat), k + m = n → 1 ≤ m → m ≤ fuel →
      fdwpAux n n (fun y x => f (y + x)) fuel (k : Int) (k : Int) (diag k) =
        some (diag n) := by
  intro m
  induction m with
  | zero => omega
  | succ m' ih =>
    intro k fuel hkm hm hfuel
    obtain ⟨fu, rfl⟩ : ∃ fu, fuel = fu + 1 := ⟨fuel - 1, by omega⟩
    rcases Nat.eq_zero_or_pos m' with hm' | hm'
    · -- k + 1 = n: no candidate remains, the path closes with (k, k).
      have hkn : k + 1 = n := by omega
      have hcand : candidates n n (fun y x => f (y + x)) (diag (k + 1))
          (k : Int) (k : Int) = [] := by
        rw [List.eq_nil_iff_forall_not_mem]
        intro c hc
        obtain ⟨d, hd, hcd, hb1, hb2, hsum⟩ := diag_candidates_shape n k f hf c hc
        rw [hcd] at hb1 hb2
        simp only at hb1 hb2
        omega
      have hs : (scanNeighbors n n (fun y x => f (y + x))
          (diag k ++ [((k : Int), (k : Int))]) (k : Int) (k : Int)).2 = none := by
        apply scanNeighbors_none_of_empty
        rw [← diag_succ]
        exact hcand
      rw [fdwpAux_succ_none n n _ fu _ _ _ hs, ← diag_succ, hkn]
    · -- k + 1 < n: the unique lowest candidate is (k+1, k+1).
      have hkn : k + 1 < n := by omega
      have hmem := diag_step_candidate n k f hf hkn
      cases hs : (scanNeighbors n n (fun y x => f (y + x))
          (diag k ++ [((k : Int), (k : Int))]) (k : Int) (k : Int)).2 with
      | none =>
        exfalso
        have hemp := scanNeighbors_none n n _ (diag k ++ [((k : Int), (k : Int))]) _ _ hs
        rw [← diag_succ] at hemp
        rw [hemp] at hmem
        cases hmem
      | some c =>
        obtain ⟨ny, nx⟩ := c
        obtain ⟨hcin, hcmin⟩ := scanNeighbors_some n n _ _ _ _ _ hs
        rw [← diag_succ] at hcin hcmin
        have hcle := hcmin _ hmem
        obtain ⟨d, hd, hcd, hb1, hb2, hsum⟩ :=
          diag_candidates_shape n k f hf (ny, nx) hcin
        have hsum2 : 2 ≤ d.1 + d.2 := by
          rw [hcd] at hcle
          simp only at hcle
          have := hf.le_iff_le.1 hcle
          omega
        have hd11 : d = (1, 1) := by
          have : d.1 ≤ 1 ∧ d.2 ≤ 1 := by
            rcases d with ⟨d1, d2⟩
            simp only [deltas, List.mem_cons, List.mem_singleton,
              List.not_mem_nil, or_false, Prod.mk.injEq] at hd
            rcases hd with h|h|h|h|h|h|h|h|h <;>
              · obtain ⟨h1, h2⟩ := h
                subst h1; subst h2
                exact ⟨by norm_num, by norm_num⟩
          rcases d with ⟨d1, d2⟩
          simp only at hsum2 this
          have hd1 : d1 = 1 := by omega
          have hd2 : d2 = 1 := by omega
          rw [hd1, hd2]
        rw [hd11] at hcd
        injection hcd with hcd1 hcd2
        subst hcd1
        subst hcd2
        have hnotle : ¬ f ((k : Int) + (k : Int)) ≤
            f (((k : Int) + 1) + ((k : Int) + 1)) := by
          exact not_le.2 (hf (by omega))
        rw [fdwpAux_succ_some n n _ fu _ _ _ _ _ hs, if_neg hnotle, ← diag_succ]
        have hcast : ((k : Int) + 1) = ((k + 1 : Nat) : Int) := by push_cast; rfl
        rw [hcast]
        exact ih (k + 1) fu (by omega) (by omega) (by omega)

/-- C9 amended: on an n x n monotonically decreasing slope (elevation a
strictly decreasing function of y + x), the path traced from the corner
peak (0, 0) is exactly the diagonal, visiting each diagonal cell once,
and its length equals the Chebyshev distance between the two corners
plus one (the path counts cells, the distance counts steps). -/
theorem trace_downhill_slope (n : Nat) (hn : 1 ≤ n) (f : Int → ℚ)
    (hf : StrictAnti f) :
    find_downhill_water_path n n (fun y x => f (y + x)) 0 0 = some (diag n) ∧
    (diag n).Nodup ∧
    (diag n).length = chebyshev (0, 0) ((n : Int) - 1, (n : Int) - 1) + 1 := by
  refine ⟨?_, ?_, ?_⟩
  · rw [find_downhill_water_path]
    have hstep := fdwpAux_diag n f hf n 0 (n * n) (by omega) hn (by nlinarith)
    exact hstep
  · rw [diag]
    exact (List.nodup_range n).map (fun a b hab => by
      injection hab with h1 h2
      exact_mod_cast h1)
  · rw [diag_length, chebyshev]
    show n = max ((0 : Int) - ((n : Int) - 1)).natAbs ((0 : Int) - ((n : Int) - 1)).natAbs + 1
    rw [max_self]
    omega

/-- C9 amended witness: the theorem applied to the 2x2 slope with
elevation -(y + x). -/
theorem trace_downhill_slope_witness :
    (find_downhill_water_path 2 2
        (fun y x => (fun t : Int => (-t : ℚ)) (y + x)) 0 0 = some (diag 2)) ∧
    (diag 2).Nodup ∧
    (diag 2).length = chebyshev (0, 0) ((2 : Int) - 1, (2 : Int) - 1) + 1 :=
  trace_downhill_slope 2 (by norm_num) (fun t : Int => (-t : ℚ))
    (fun a b hab => neg_lt_neg (Int.cast_lt.2 hab))
/-- One neighbour of the inner double loop of `expand_lake`: a neighbour
(centre offset included) that is in bounds and whose elevation
difference from the start elevation lies within [-max_gradient,
lake_depth] is marked with the lake sentinel 2 when the grid still holds
0 there (rivers are never overwritten), and is appended to the queue. -/
def lakeStep (h w : Nat) (e : Int → Int → ℚ)
    (startE lake_depth max_gradient : ℚ) (cy cx : Int)
    (st : (Int → Int → ℚ) × List (Int × Int)) (d : Int × Int) :
    (Int → Int → ℚ) × List (Int × Int) :=
  let ny := cy + d.1
  let nx := cx + d.2
  if inB h w ny nx then
    if e ny nx - startE ≤ lake_depth ∧ -max_gradient ≤ e ny nx - startE then
      (if st.1 ny nx = 0 then updateR st.1 ny nx 2 else st.1, st.2 ++ [(ny, nx)])
    else st
  else st

/-- The full 3x3 scan of `expand_lake` around one dequeued cell. -/
def processNeighbors (h w : Nat) (e : Int → Int → ℚ)
    (startE lake_depth max_gradient : ℚ) (cy cx : Int)
    (st : (Int → Int → ℚ) × List (Int × Int)) :
    (Int → Int → ℚ) × List (Int × Int) :=
  deltas.foldl (lakeStep h w e startE lake_depth max_gradient cy cx) st

/-- The BFS loop of `expand_lake` with explicit fuel: pop the front of
the queue, skip it when already visited, else mark it visited and
process its neighbourhood. -/
def expandLakeAux (h w : Nat) (e : Int → Int → ℚ)
    (startE lake_depth max_gradient : ℚ) :
    Nat → List (Int × Int) → List (Int × Int) → (Int → Int → ℚ) →
      Option (Int → Int → ℚ)
  | 0, _, _, _ => none
  | _ + 1, [], _, river => some river
  | fuel + 1, c :: rest, visited, river =>
    if c ∈ visited then
      expandLakeAux h w e startE lake_depth max_gradient fuel rest visited river
    else
      expandLakeAux h w e startE lake_depth max_gradient fuel
        (processNeighbors h w e startE lake_depth max_gradient c.1 c.2 (river, rest)).2
        (c :: visited)
        (processNeighbors h w e startE lake_depth max_gradient c.1 c.2 (river, rest)).1

/-- `expand_lake`, with a fuel of 9*width*height + 11; the termination
theorem shows this always suffices. -/
def expand_lake (h w : Nat) (e : Int → Int → ℚ) (y x : Int)
    (lake_depth max_gradient : ℚ) (river : Int → Int → ℚ) :
    Option (Int → Int → ℚ) :=
  expandLakeAux h w e (e y x) lake_depth max_gradient (9 * (h * w) + 11)
    [(y, x)] [] river

example :
    (expand_lake 1 1 (fun _ _ => 0) 0 0 100 50 (fun _ _ => 0)).map
      (fun r => r 0 0) = some 2 := by with_unfolding_all decide

example :
    (expand_lake 1 2 (fun _ x => (x : ℚ)) 0 0 100 50
      (fun _ x => if x = 1 then 7 else 0)).map
      (fun r => (r 0 0, r 0 1)) = some (2, 7) := by with_unfolding_all decide

/-- The write contract between an old and a new river grid: every cell
is unchanged, or held 0 and now holds the lake sentinel 2. -/
def FrameLe (r0 r : Int → Int → ℚ) : Prop :=
  ∀ a b : Int, r a b = r0 a b ∨ (r0 a b = 0 ∧ r a b = 2)

theorem frameLe_refl (r : Int → Int → ℚ) : FrameLe r r :=
  fun _ _ => Or.inl rfl

theorem frameLe_trans (r0 r1 r2 : Int → Int → ℚ)
    (h01 : FrameLe r0 r1) (h12 : FrameLe r1 r2) : FrameLe r0 r2 := by
  intro a b
  rcases h12 a b with h | ⟨h1, h2⟩
  · rw [h]
    exact h01 a b
  · rcases h01 a b with h' | ⟨h1', h2'⟩
    · rw [h'] at h1
      exact Or.inr ⟨h1, h2⟩
    · rw [h2'] at h1
      exact absurd h1 (by norm_num)

theorem frameLe_update (r : Int → Int → ℚ) (y x : Int) (h0 : r y x = 0) :
    FrameLe r (updateR r y x 2) := by
  intro a b
  rw [updateR]
  by_cases hab : a = y ∧ b = x
  · rw [if_pos hab]
    obtain ⟨h1, h2⟩ := hab
    subst h1; subst h2
    exact Or.inr ⟨h0, rfl⟩
  · rw [if_neg hab]
    exact Or.inl rfl

theorem lakeStep_frame (h w : Nat) (e : Int → Int → ℚ) (startE d g : ℚ)
    (cy cx : Int) (st : (Int → Int → ℚ) × List (Int × Int)) (dd : Int × Int) :
    FrameLe st.1 (lakeStep h w e startE d g cy cx st dd).1 := by
  rw [lakeStep]
  by_cases hb : inB h w (cy + dd.1) (cx + dd.2) = true
  · rw [if_pos hb]
    by_cases hcond : e (cy + dd.1) (cx + dd.2) - startE ≤ d ∧
        -g ≤ e (cy + dd.1) (cx + dd.2) - startE
    · rw [if_pos hcond]
      by_cases hz : st.1 (cy + dd.1) (cx + dd.2) = 0
      · rw [if_pos hz]
        exact frameLe_update st.1 _ _ hz
      · rw [if_neg hz]
        exact frameLe_refl st.1
    · rw [if_neg hcond]
      exact frameLe_refl st.1
  · rw [if_neg hb]
    exact frameLe_refl st.1

theorem lakeStep_queue (h w : Nat) (e : Int → Int → ℚ) (startE d g : ℚ)
    (cy cx : Int) (st : (Int → Int → ℚ) × List (Int × Int)) (dd : Int × Int) :
    (lakeStep h w e startE d g cy cx st dd).2 = st.2 ∨
      ((lakeStep h w e startE d g cy cx st dd).2 = st.2 ++ [(cy + dd.1, cx + dd.2)] ∧
        inB h w (cy + dd.1) (cx + dd.2) = true) := by
  rw [lakeStep]
  by_cases hb : inB h w (cy + dd.1) (cx + dd.2) = true
  · rw [if_pos hb]
    by_cases hcond : e (cy + dd.1) (cx + dd.2) - startE ≤ d ∧
        -g ≤ e (cy + dd.1) (cx + dd.2) - startE
    · rw [if_pos hcond]
      exact Or.inr ⟨rfl, hb⟩
    · rw [if_neg hcond]
      exact Or.inl rfl
  · rw [if_neg hb]
    exact Or.inl rfl

theorem processFold_frame (h w : Nat) (e : Int → Int → ℚ) (startE d g : ℚ)
    (cy cx : Int) :
    ∀ (ds : List (Int × Int)) (st : (Int → Int → ℚ) × List (Int × Int)),
      FrameLe st.1 ((ds.foldl (lakeStep h w e startE d g cy cx) st)).1 := by
  intro ds
  induction ds with
  | nil => intro st; exact frameLe_refl st.1
  | cons dd ds ih =>
    intro st
    rw [List.foldl_cons]
    exact frameLe_trans st.1 _ _ (lakeStep_frame h w e startE d g cy cx st dd) (ih _)

theorem processFold_len (h w : Nat) (e : Int → Int → ℚ) (startE d g : ℚ)
    (cy cx : Int) :
    ∀ (ds : List (Int × Int)) (st : (Int → Int → ℚ) × List (Int × Int)),
      ((ds.foldl (lakeStep h w e startE d g cy cx) st)).2.length ≤
        st.2.length + ds.length := by
  intro ds
  induction ds with
  | nil => intro st; simp
  | cons dd ds ih =>
    intro st
    rw [List.foldl_cons]
    refine le_trans (ih _) ?_
    rcases lakeStep_queue h w e startE d g cy cx st dd with hq | ⟨hq, -⟩ <;>
      · rw [hq]
        simp only [List.length_append, List.length_cons, List.length_singleton,
          List.length_nil]
        omega

theorem processFold_mem (h w : Nat) (e : Int → Int → ℚ) (startE d g : ℚ)
    (cy cx : Int) :
    ∀ (ds : List (Int × Int)) (st : (Int → Int → ℚ) × List (Int × Int)),
      ∀ q ∈ ((ds.foldl (lakeStep h w e startE d g cy cx) st)).2,
        q ∈ st.2 ∨ inB h w q.1 q.2 = true := by
  intro ds
  induction ds with
  | nil => intro st q hq; exact Or.inl hq
  | cons dd ds ih =>
    intro st q hq
    rw [List.foldl_cons] at hq
    rcases ih _ q hq with hq' | hq'
    · rcases lakeStep_queue h w e startE d g cy cx st dd with h2 | ⟨h2, hb⟩
      · rw [h2] at hq'
        exact Or.inl hq'
      · rw [h2] at hq'
        rcases List.mem_append.1 hq' with h3 | h3
        · exact Or.inl h3
        · rw [List.mem_singleton] at h3
          subst h3
          exact Or.inr hb
    · exact Or.inr hq'

/-- All cells the BFS queue can ever hold: the in-bounds cells plus the
starting cell. -/
def cellSet (h w : Nat) (start : Int × Int) : Finset (Int × Int) :=
  (allCells h w).toFinset ∪ {start}

theorem cellSet_card (h w : Nat) (start : Int × Int) :
    (cellSet h w start).card ≤ h * w + 1 := by
  refine le_trans (Finset.card_union_le _ _) ?_
  have h1 := List.toFinset_card_le (allCells h w)
  rw [allCells_length] at h1
  simp only [Finset.card_singleton]
  omega

theorem expandLakeAux_nil (h w : Nat) (e : Int → Int → ℚ) (startE d g : ℚ)
    (fuel : Nat) (visited : List (Int × Int)) (river : Int → Int → ℚ) :
    expandLakeAux h w e startE d g (fuel + 1) [] visited river = some river := rfl

theorem expandLakeAux_cons (h w : Nat) (e : Int → Int → ℚ) (startE d g : ℚ)
    (fuel : Nat) (c : Int × Int) (rest visited : List (Int × Int))
    (river : Int → Int → ℚ) :
    expandLakeAux h w e startE d g (fuel + 1) (c :: rest) visited river =
      if c ∈ visited then expandLakeAux h w e startE d g fuel rest visited river
      else
        expandLakeAux h w e startE d g fuel
          (processNeighbors h w e startE d g c.1 c.2 (river, rest)).2
          (c :: visited)
          (processNeighbors h w e startE d g c.1 c.2 (river, rest)).1 := rfl

theorem expandLakeAux_terminates (h w : Nat) (e : Int → Int → ℚ)
    (startE d g : ℚ) (start : Int × Int) :
    ∀ (fuel : Nat) (queue visited : List (Int × Int)) (river : Int → Int → ℚ),
      (∀ c ∈ queue, inB h w c.1 c.2 = true ∨ c = start) →
      queue.length + 9 * ((cellSet h w start) \ visited.toFinset).card < fuel →
      ∃ r, expandLakeAux h w e startE d g fuel queue visited river = some r := by
  intro fuel
  induction fuel with
  | zero => intro queue visited river hq hm; omega
  | succ n ih =>
    intro queue visited river hq hm
    cases queue with
    | nil => exact ⟨river, expandLakeAux_nil h w e startE d g n visited river⟩
    | cons c rest =>
      rw [expandLakeAux_cons]
      by_cases hv : c ∈ visited
      · rw [if_pos hv]
        apply ih rest visited river (fun q hq' => hq q (List.mem_cons_of_mem c hq'))
        rw [List.length_cons] at hm
        omega
      · rw [if_neg hv]
        have hlen : (processNeighbors h w e startE d g c.1 c.2 (river, rest)).2.length ≤
            rest.length + 9 :=
          processFold_len h w e startE d g c.1 c.2 deltas (river, rest)
        have hmem : ∀ q ∈ (processNeighbors h w e startE d g c.1 c.2 (river, rest)).2,
            inB h w q.1 q.2 = true ∨ q = start := by
          intro q hqq
          rcases processFold_mem h w e startE d g c.1 c.2 deltas (river, rest) q hqq
            with h1 | h1
          · exact hq q (List.mem_cons_of_mem c h1)
          · exact Or.inl h1
        have hcS : c ∈ cellSet h w start := by
          rcases hq c (List.mem_cons_self c rest) with h1 | h1
          · exact Finset.mem_union_left _ (List.mem_toFinset.2 ((mem_allCells h w c).2 h1))
          · exact Finset.mem_union_right _ (Finset.mem_singleton.2 h1)
        have hcv : c ∉ visited.toFinset := fun hc => hv (List.mem_toFinset.1 hc)
        have hin : c ∈ (cellSet h w start) \ visited.toFinset :=
          Finset.mem_sdiff.2 ⟨hcS, hcv⟩
        have hcard : ((cellSet h w start) \ (c :: visited).toFinset).card =
            ((cellSet h w start) \ visited.toFinset).card - 1 := by
          rw [List.toFinset_cons, Finset.sdiff_insert, Finset.card_erase_of_mem hin]
        have hpos : 1 ≤ ((cellSet h w start) \ visited.toFinset).card :=
          Finset.card_pos.2 ⟨c, hin⟩
        apply ih _ (c :: visited) _ hmem
        rw [hcard]
        rw [List.length_cons] at hm
        omega

theorem expandLakeAux_frame (h w : Nat) (e : Int → Int → ℚ) (startE d g : ℚ) :
    ∀ (fuel : Nat) (queue visited : List (Int × Int)) (river r : Int → Int → ℚ),
      expandLakeAux h w e startE d g fuel queue visited river = some r →
      FrameLe river r := by
  intro fuel
  induction fuel with
  | zero => intro queue visited river r hr; cases hr
  | succ n ih =>
    intro queue visited river r hr
    cases queue with
    | nil =>
      rw [expandLakeAux_nil] at hr
      injection hr with hr
      rw [← hr]
      exact frameLe_refl river
    | cons c rest =>
      rw [expandLakeAux_cons] at hr
      by_cases hv : c ∈ visited
      · rw [if_pos hv] at hr
        exact ih rest visited river r hr
      · rw [if_neg hv] at hr
        exact frameLe_trans river _ r
          (processFold_frame h w e startE d g c.1 c.2 deltas (river, rest))
          (ih _ _ _ r hr)

/-- C2: `expand_lake` always terminates within its fuel, never changes a
cell that already holds a nonzero value, and every cell it does change
held 0 before and holds the lake sentinel 2 afterwards. -/
theorem expand_lake_spec (h w : Nat) (e : Int → Int → ℚ) (y x : Int)
    (lake_depth max_gradient : ℚ) (river : Int → Int → ℚ) :
    ∃ r, expand_lake h w e y x lake_depth max_gradient river = some r ∧
      ∀ a b : Int, (river a b ≠ 0 → r a b = river a b) ∧
        (r a b ≠ river a b → river a b = 0 ∧ r a b = 2) := by
  obtain ⟨r, hr⟩ := expandLakeAux_terminates h w e (e y x) lake_depth max_gradient
    (y, x) (9 * (h * w) + 11) [(y, x)] [] river
    (fun c hc => Or.inr (List.mem_singleton.1 hc))
    (by
      rw [List.toFinset_nil, Finset.sdiff_empty, List.length_singleton]
      have := cellSet_card h w (y, x)
      omega)
  have hf := expandLakeAux_frame h w e (e y x) lake_depth max_gradient
    (9 * (h * w) + 11) [(y, x)] [] river r hr
  refine ⟨r, hr, fun a b => ⟨?_, ?_⟩⟩
  · intro hnz
    rcases hf a b with h1 | ⟨h1, -⟩
    · exact h1
    · exact absurd h1 hnz
  · intro hne
    rcases hf a b with h1 | h1
    · exact absurd h1 hne
    · exact h1

/-- One path walk of `generate_rivers`: the width counter starts at 1;
at each path cell, when the water mask value is at least 1 it is added
to the width, and the running width is written into the river grid. -/
def riverWidthFold (wmap : Int → Int → ℚ) (path : List (Int × Int))
    (river : Int → Int → ℚ) : (Int → Int → ℚ) × ℚ :=
  path.foldl (fun st c =>
    let width := if 1 ≤ wmap c.1 c.2 then st.2 + wmap c.1 c.2 else st.2
    (updateR st.1 c.1 c.2 width, width)) (river, 1)

/-- `generate_rivers`: starting from an all-zero grid, trace each
source's downhill path, write accumulated widths along it, then expand
a lake at the final path cell (default lake_depth 100, max_gradient
50). `none` when a trace or an expansion runs out of fuel. -/
def generate_rivers (h w : Nat) (e wmap : Int → Int → ℚ)
    (water_sources : List (Int × Int)) : Option (Int → Int → ℚ) :=
  water_sources.foldlM (fun river s =>
    match find_downhill_water_path h w e s.1 s.2 with
    | none => none
    | some path =>
      let last := path.getLastD s
      expand_lake h w e last.1 last.2 100 50 (riverWidthFold wmap path river).1)
    (fun _ _ => 0)

/-- The cells at which `generate_lakes` invokes the lake expander: the
row-major grid cells passing the `is_local_minimum` test. -/
def lakeSeeds (h w : Nat) (e : Int → Int → ℚ) : List (Int × Int) :=
  (allCells h w).filter (fun c => is_local_minimum h w c.1 c.2 e)

/-- `generate_lakes`: over a copy of the river grid, expand a lake
(lake_depth 50, max_gradient 50) at every cell passing the local
minimum test. -/
def generate_lakes (h w : Nat) (e : Int → Int → ℚ)
    (river : Int → Int → ℚ) : Option (Int → Int → ℚ) :=
  (lakeSeeds h w e).foldlM (fun r c => expand_lake h w e c.1 c.2 50 50 r) river

/-- `generate_merged_elevation_and_river_map`: overlay every nonzero
river value over the elevation grid (presentation only). -/
def generate_merged_elevation_and_river_map (h w : Nat)
    (e river : Int → Int → ℚ) : Int → Int → ℚ :=
  (allCells h w).foldl (fun m c =>
    if 0 < river c.1 c.2 then updateR m c.1 c.2 (river c.1 c.2) else m) e

/-- Stated from the claim's words, for comparison with the code: a
strict local minimum has every in-bounds 8-neighbour strictly higher. -/
def strictLocalMin (h w : Nat) (y x : Int) (e : Int → Int → ℚ) : Prop :=
  ∀ d ∈ deltasNoCenter, inB h w (y + d.1) (x + d.2) = true →
    e y x < e (y + d.1) (x + d.2)

/-- C5 counterexample: on a flat 1x2 field, (0, 0) is a lake seed of
`generate_lakes` (the `is_local_minimum` test passes on a plateau), yet
it is not a strict local minimum: its neighbour (0, 1) has equal, not
strictly greater, elevation. -/
theorem generate_lakes_seeds_cex :
    (0, 0) ∈ lakeSeeds 1 2 (fun _ _ => 0) ∧
      ¬ strictLocalMin 1 2 0 0 (fun _ _ => 0) := by
  constructor
  · with_unfolding_all decide
  · intro hs
    have := hs (0, 1) (by decide) (by decide)
    exact absurd this (by norm_num)

/-- C5 amended: `generate_lakes` invokes the lake expander at exactly
the in-bounds cells none of whose in-bounds neighbours is strictly
lower — weak local minima, plateau cells included. -/
theorem generate_lakes_seeds (h w : Nat) (e : Int → Int → ℚ) (c : Int × Int) :
    c ∈ lakeSeeds h w e ↔
      (inB h w c.1 c.2 = true ∧
        ∀ d ∈ deltas, inB h w (c.1 + d.1) (c.2 + d.2) = true →
          e c.1 c.2 ≤ e (c.1 + d.1) (c.2 + d.2)) := by
  rw [lakeSeeds, List.mem_filter, mem_allCells]
  constructor
  · rintro ⟨hb, hmin⟩
    refine ⟨hb, ?_⟩
    intro d hd hbd
    rw [is_local_minimum, List.all_eq_true] at hmin
    have h2 := hmin d hd
    rw [Bool.not_eq_true'] at h2
    rcases Bool.and_eq_false_iff.1 h2 with h3 | h3
    · rw [hbd] at h3; cases h3
    · exact le_of_not_lt (of_decide_eq_false h3)
  · rintro ⟨hb, hmin⟩
    refine ⟨hb, ?_⟩
    rw [is_local_minimum, List.all_eq_true]
    intro d hd
    rw [Bool.not_eq_true']
    by_cases hbd : inB h w (c.1 + d.1) (c.2 + d.2) = true
    · rw [hbd]
      simp only [Bool.true_and]
      rw [decide_eq_false_iff_not]
      exact not_lt.2 (hmin d hd hbd)
    · rw [Bool.not_eq_true] at hbd
      rw [hbd]
      rfl

/-- C6 counterexample: with negative lake_depth and max_gradient,
`expand_lake` does not fail with a configuration error: it returns the
(unchanged) river grid — the code performs no validation. -/
theorem expand_lake_no_validation_cex :
    expand_lake 1 1 (fun _ _ => 0) 0 0 (-1) (-1) (fun _ _ => 0) =
      some (fun _ _ => 0) := by
  with_unfolding_all rfl

/-- C6 amended: `find_water_sources` does fail when the percentile lies
outside [0, 100] (the range check inside the percentile library call),
but `expand_lake` — and with it `generate_lakes` — validates nothing:
for every lake_depth and max_gradient, negative included, it returns a
result grid. -/
theorem config_validation (h w : Nat) (e : Int → Int → ℚ) (p : ℚ)
    (hp : p < 0 ∨ 100 < p) (y x : Int) (lake_depth max_gradient : ℚ)
    (river : Int → Int → ℚ) :
    find_water_sources h w e p = none ∧
    ∃ r, expand_lake h w e y x lake_depth max_gradient river = some r := by
  constructor
  · rw [find_water_sources]
    have hnone : npPercentile p (elevList h w e) = none := by
      rw [npPercentile]
      by_cases h0 : (elevList h w e).length = 0
      · rw [if_pos h0]
      · rw [if_neg h0, if_pos hp]
    rw [hnone]
  · exact expandLakeAux_terminates h w e (e y x) lake_depth max_gradient
      (y, x) (9 * (h * w) + 11) [(y, x)] [] river
      (fun c hc => Or.inr (List.mem_singleton.1 hc))
      (by
        rw [List.toFinset_nil, Finset.sdiff_empty, List.length_singleton]
        have := cellSet_card h w (y, x)
        omega)

/-- C6 amended witness: the theorem applied at percentile 101 and
lake_depth, max_gradient both -1 on a 1x1 field. -/
theorem config_validation_witness :
    find_water_sources 1 1 (fun _ _ => 0) 101 = none ∧
    ∃ r, expand_lake 1 1 (fun _ _ => 0) 0 0 (-1) (-1) (fun _ _ => 0) = some r :=
  config_validation 1 1 (fun _ _ => 0) 101 (by norm_num) 0 0 (-1) (-1)
    (fun _ _ => 0)

/-- C7 counterexample: on a zero-height grid, `find_water_sources` does
not return an empty source list: it fails (the percentile of an empty
array is an error, modelled as `none`). -/
theorem degenerate_sources_cex :
    find_water_sources 0 3 (fun _ _ => 0) 95 = none ∧
      ∀ l : List (Int × Int), find_water_sources 0 3 (fun _ _ => 0) 95 ≠ some l := by
  constructor
  · with_unfolding_all rfl
  · intro l hl
    rw [show find_water_sources 0 3 (fun _ _ => 0) 95 = none from
      by with_unfolding_all rfl] at hl
    cases hl

/-- C7 amended: on a degenerate grid (width or height 0) every component
returns an empty or trivial output without failing — except
`find_water_sources`, which fails because the percentile of the empty
elevation list is undefined. -/
theorem degenerate_grids (h w : Nat) (hd : h = 0 ∨ w = 0)
    (e wmap river : Int → Int → ℚ) (lvl p : ℚ) :
    allCells h w = [] ∧
    (allCells h w).map (fun c => generate_water e lvl c.1 c.2) = [] ∧
    find_water_sources h w e p = none ∧
    generate_rivers h w e wmap [] = some (fun _ _ => 0) ∧
    generate_lakes h w e river = some river ∧
    generate_merged_elevation_and_river_map h w e river = e := by
  have hcells : allCells h w = [] := by
    rcases hd with hd | hd <;> subst hd <;> simp [allCells]
  refine ⟨hcells, by rw [hcells]; rfl, ?_, rfl, ?_, ?_⟩
  · rw [find_water_sources]
    have hnone : npPercentile p (elevList h w e) = none := by
      rw [npPercentile, elevList, hcells]
      rfl
    rw [hnone]
  · rw [generate_lakes, lakeSeeds, hcells]
    rfl
  · rw [generate_merged_elevation_and_river_map, hcells]
    rfl

/-- C7 amended witness: the theorem applied to a 0x3 grid. -/
theorem degenerate_grids_witness :
    allCells 0 3 = [] ∧
    (allCells 0 3).map
      (fun c => generate_water (fun _ _ => 0) 5 c.1 c.2) = [] ∧
    find_water_sources 0 3 (fun _ _ => 0) 95 = none ∧
    generate_rivers 0 3 (fun _ _ => 0) (fun _ _ => 0) [] = some (fun _ _ => 0) ∧
    generate_lakes 0 3 (fun _ _ => 0) (fun _ _ => 0) = some (fun _ _ => 0) ∧
    generate_merged_elevation_and_river_map 0 3 (fun _ _ => 0) (fun _ _ => 0) =
      (fun _ _ => 0) :=
  degenerate_grids 0 3 (Or.inl rfl) (fun _ _ => 0) (fun _ _ => 0) (fun _ _ => 0) 5 95

/-- C10: every cell `expand_lake` changes is set to exactly the value 2,
and 2 is also what `generate_rivers` writes at a river cell whose
accumulated width reaches 2 — as on the concrete 1x3 slope below, where
(0, 1) is a width-2 river cell indistinguishable from the lake
sentinel. -/
theorem lake_sentinel_indistinguishable :
    (∀ (h w : Nat) (e : Int → Int → ℚ) (y x : Int) (d g : ℚ)
        (river r : Int → Int → ℚ),
      expand_lake h w e y x d g river = some r →
      ∀ a b : Int, r a b ≠ river a b → r a b = 2) ∧
    (generate_rivers 1 3 (fun _ x => (-x : ℚ))
        (fun _ x => if x = 1 then 1 else 0) [(0, 0)]).map
        (fun r => (r 0 0, r 0 1, r 0 2)) = some (1, 2, 2) := by
  constructor
  · intro h w e y x d g river r hr a b hne
    have hf := expandLakeAux_frame h w e (e y x) d g (9 * (h * w) + 11)
      [(y, x)] [] river r hr
    rcases hf a b with h1 | ⟨-, h2⟩
    · exact absurd h1 hne
    · exact h2
  · with_unfolding_all decide
